import Mathlib

/-!
Verification development for the blob-storage request-resolution client in
`netlify/go-functions/go.go` (the fully-elaborated variant that defines
`Client.GetFinalRequest`, `Client.MakeRequest`, `validateStoreName`,
`NewStore` and `Store.Get`).  The Go code is shallowly embedded: strings stay
strings, Go maps become association lists, the HTTP round trip becomes an
explicit transport function, and `log.Fatal` / nil-pointer dereferences become
explicit error outcomes.
-/

namespace Blobs

/-- Substring test on character lists, modelling Go `strings.Contains` (an
empty needle is always contained). -/
def charsContains (sub : List Char) : List Char → Bool
  | [] => sub.isEmpty
  | c :: rest => sub.isPrefixOf (c :: rest) || charsContains sub rest

/-- Go `strings.Contains s sub`. -/
def goContains (s sub : String) : Bool :=
  charsContains sub.data s.data

/-- Splits a character list at the first occurrence of `sep`; the second
component is the remainder after the separator when it occurs. -/
def breakAt (sep : Char) : List Char → List Char × Option (List Char)
  | [] => ([], none)
  | c :: rest =>
    if c = sep then ([], some rest)
    else
      let p := breakAt sep rest
      (c :: p.1, p.2)

/-- Go `strings.Split` for a single-character separator. -/
def splitChar (sep : Char) : List Char → List (List Char)
  | [] => [[]]
  | c :: rest =>
    if c = sep then [] :: splitChar sep rest
    else
      match splitChar sep rest with
      | [] => [[c]]
      | g :: gs => (c :: g) :: gs

/-- Joins character-list groups with a separator; inverse of `splitChar`. -/
def joinChar (sep : Char) : List (List Char) → List Char
  | [] => []
  | [g] => g
  | g :: gs => g ++ sep :: joinChar sep gs

/-- Valid header-field bytes per Go net/textproto (its token table: digits,
letters, and the bytes 33, 35, 36, 37, 38, 39, 42, 43, 45, 46, 94, 95, 96,
124, 126). -/
def validHeaderFieldByte (c : Char) : Bool :=
  let n := c.toNat
  (decide (48 ≤ n) && decide (n ≤ 57)) || (decide (65 ≤ n) && decide (n ≤ 90)) ||
    (decide (97 ≤ n) && decide (n ≤ 122)) ||
    [33, 35, 36, 37, 38, 39, 42, 43, 45, 46, 94, 95, 96, 124, 126].contains n

/-- Case-normalisation loop of Go textproto `canonicalMIMEHeaderKey`: a letter
is uppercased at the start and after each hyphen, lowercased elsewhere. -/
def canonicalChars : Bool → List Char → List Char
  | _, [] => []
  | upper, c :: rest =>
    (if upper then c.toUpper else c.toLower) :: canonicalChars (c = '-') rest

/-- Go textproto `CanonicalMIMEHeaderKey`: keys containing an invalid byte are
returned unchanged; otherwise letters are case-normalised around hyphens. -/
def canonicalMIMEHeaderKey (s : String) : String :=
  if s.data.all validHeaderFieldByte then ⟨canonicalChars true s.data⟩ else s

/-- Header collections are association lists in insertion order; Go net/http
stores keys in canonical MIME form. -/
abbrev Headers := List (String × String)

/-- Go `Header.Add`: canonicalises the key and appends the value. -/
def headerAdd (h : Headers) (key value : String) : Headers :=
  h ++ [(canonicalMIMEHeaderKey key, value)]

/-- Go `Header.Get`: canonicalises the key and returns the first value, or the
empty string when the key is absent. -/
def headerGet (h : Headers) (key : String) : String :=
  match h.lookup (canonicalMIMEHeaderKey key) with
  | some v => v
  | none => ""

/-- Response headers as stored by Go net/http: each key arriving on the wire
is canonicalised on receipt. -/
def wireHeaders (pairs : List (String × String)) : Headers :=
  pairs.map fun p => (canonicalMIMEHeaderKey p.1, p.2)

/-- An outbound HTTP request as this client assembles it. -/
structure HTTPRequest where
  method : String
  url : String
  headers : Headers
deriving DecidableEq, Repr

/-- An HTTP response as surfaced by Go net/http. -/
structure HTTPResponse where
  statusCode : Nat
  headers : Headers
  body : String
deriving DecidableEq, Repr

/-- A transport models `http.DefaultTransport.RoundTrip`; `none` is the
(nil response, non-nil error) outcome of a transport failure. -/
def Transport := HTTPRequest → Option HTTPResponse

/-- Caller-visible failure modes of the embedded Go code.  `fatalExit` stands
for `log.Fatal`, and `nilDereference` for a runtime panic caused by using a
nil `*http.Response`. -/
inductive GoError where
  | blobsInternal (message : String)
  | blobsConsistency (message : String)
  | storeNameInvalid (message : String)
  | transportFailure
  | nilDereference
  | fatalExit
deriving DecidableEq, Repr

/-- `NewBlobsInternalError` from the source: reads the `NF_ERROR` and
`NF_REQUEST_ID` headers (spelled with underscores there) and falls back to the
numeric status code when the first is absent. -/
def NewBlobsInternalError (res : HTTPResponse) : GoError :=
  let details0 := headerGet res.headers "NF_ERROR"
  let details1 := if details0 = "" then toString res.statusCode ++ " status code" else details0
  let details2 :=
    if headerGet res.headers "NF_REQUEST_ID" ≠ "" then
      details1 ++ ", ID: " ++ headerGet res.headers "NF_REQUEST_ID"
    else details1
  GoError.blobsInternal ("Netlify Blobs has generated an internal error (" ++ details2 ++ ")")

/-- UTF-8 encoding of a single character as byte values. -/
def utf8Bytes (c : Char) : List Nat :=
  let n := c.toNat
  if n < 128 then [n]
  else if n < 2048 then [192 + n / 64, 128 + n % 64]
  else if n < 65536 then [224 + n / 4096, 128 + n / 64 % 64, 128 + n % 64]
  else [240 + n / 262144, 128 + n / 4096 % 64, 128 + n / 64 % 64, 128 + n % 64]

/-- ASCII letters and digits, the byte ranges Go's URL code tests with
explicit comparisons. -/
def isASCIIAlnum (c : Char) : Bool :=
  let n := c.toNat
  (decide (48 ≤ n) && decide (n ≤ 57)) || (decide (65 ≤ n) && decide (n ≤ 90)) ||
    (decide (97 ≤ n) && decide (n ≤ 122))

/-- Uppercase hexadecimal digit, as Go net/url emits in percent-escapes. -/
def upperHexDigit (n : Nat) : Char :=
  if n < 10 then Char.ofNat (48 + n) else Char.ofNat (55 + n)

/-- Percent-escapes one byte. -/
def pctByte (b : Nat) : List Char :=
  ['%', upperHexDigit (b / 16), upperHexDigit (b % 16)]

/-- Go net/url `QueryEscape`: space (byte 32) becomes `+`, the unreserved
bytes (alphanumerics and the bytes 45 `-`, 46 `.`, 95 `_`, 126 `~`) pass
through, every other byte is percent-escaped. -/
def queryEscape (s : String) : String :=
  ⟨s.data.flatMap fun c =>
    if c.toNat = 32 then ['+']
    else if isASCIIAlnum c || decide (c.toNat = 45) || decide (c.toNat = 46) ||
        decide (c.toNat = 95) || decide (c.toNat = 126) then [c]
    else (utf8Bytes c).flatMap pctByte⟩

/-- Value of a hexadecimal digit character. -/
def hexVal (c : Char) : Option Nat :=
  let n := c.toNat
  if 48 ≤ n ∧ n ≤ 57 then some (n - 48)
  else if 65 ≤ n ∧ n ≤ 70 then some (n - 55)
  else if 97 ≤ n ∧ n ≤ 102 then some (n - 87)
  else none

/-- Go net/url `unescape` in `encodePath` mode: `%` must be followed by two
hexadecimal digits and `+` is left alone.  Decoded bytes are modelled as
characters, which is faithful on ASCII — the only bytes the embedded code can
produce. -/
def unescapeChars : List Char → Option (List Char)
  | [] => some []
  | c :: rest =>
    if c = '%' then
      match rest with
      | h1 :: h2 :: rest2 =>
        match hexVal h1, hexVal h2 with
        | some a, some b => (unescapeChars rest2).map fun l => Char.ofNat (16 * a + b) :: l
        | _, _ => none
      | _ => none
    else (unescapeChars rest).map fun l => c :: l

/-- Go net/url `unescape` in `encodeQueryComponent` mode: like the path mode
but `+` decodes to a space. -/
def unescapeQueryChars : List Char → Option (List Char)
  | [] => some []
  | c :: rest =>
    if c = '%' then
      match rest with
      | h1 :: h2 :: rest2 =>
        match hexVal h1, hexVal h2 with
        | some a, some b => (unescapeQueryChars rest2).map fun l => Char.ofNat (16 * a + b) :: l
        | _, _ => none
      | _ => none
    else if c = '+' then (unescapeQueryChars rest).map fun l => ' ' :: l
    else (unescapeQueryChars rest).map fun l => c :: l

/-- Go net/url `resolvePath` for a reference whose path is rooted (the base
path is then never consulted): split on slashes, drop `.` segments, let `..`
pop, re-join, and restore the single leading slash. -/
def resolvePathAbs (full : String) : String :=
  let src := splitChar '/' full.data
  let dst := src.foldl
    (fun acc elem =>
      if elem = ['.'] then acc
      else if elem = ['.', '.'] then acc.dropLast
      else acc ++ [elem])
    ([] : List (List Char))
  let dst := if src.getLast? = some ['.'] ∨ src.getLast? = some ['.', '.'] then dst ++ [[]] else dst
  let joined := joinChar '/' dst
  ⟨'/' :: (match joined with
           | '/' :: rest => rest
           | l => l)⟩

/-- Go net/url Parse rejects ASCII control characters anywhere in the URL. -/
def containsCtlChar (s : String) : Bool :=
  s.data.any fun c => decide (c.toNat < 32) || decide (c.toNat = 127)

/-- Parsed URL in the fragment Go keeps: `epath` is the escaped path (Go's
`EscapedPath()`, which returns the raw parsed text whenever that text
unescapes successfully — see `setPathModel`). -/
structure GoURL where
  scheme : String := ""
  host : String := ""
  epath : String := ""
  rawQuery : String := ""
  frag : String := ""
deriving DecidableEq, Repr

/-- Models `url.setPath` followed by `EscapedPath()`: when the raw text
unescapes, Go stores it (as `RawPath` or an equal re-escaping) and
`EscapedPath()` returns it verbatim; otherwise Parse fails. -/
def setPathModel (p : String) : Option String :=
  (unescapeChars p.data).map fun _ => p

/-- Scheme characters accepted by Go `getScheme` after the first letter:
letters, digits, and the bytes 43 `+`, 45 `-`, 46 `.`. -/
def isSchemeTailChar (c : Char) : Bool :=
  isASCIIAlnum c || decide (c.toNat = 43) || decide (c.toNat = 45) || decide (c.toNat = 46)

/-- ASCII letters, the first-character test of Go `getScheme`. -/
def isASCIIAlphaChar (c : Char) : Bool :=
  (decide (65 ≤ c.toNat) && decide (c.toNat ≤ 90)) ||
    (decide (97 ≤ c.toNat) && decide (c.toNat ≤ 122))

/-- Host characters of the plain hosts this model covers (no user info, port,
bracketed address or percent-escape): alphanumerics and the bytes 45 `-`,
46 `.`, 95 `_`. -/
def isPlainHostChar (c : Char) : Bool :=
  isASCIIAlnum c || decide (c.toNat = 45) || decide (c.toNat = 46) || decide (c.toNat = 95)

/-- Lowercase ASCII letters; an apiURL scheme made of these is untouched by
Go's scheme lowercasing. -/
def isLowerAlpha (c : Char) : Bool :=
  decide (97 ≤ c.toNat) && decide (c.toNat ≤ 122)

/-- Safe segment characters for site ids, store names, keys and regions:
alphanumerics, hyphen and underscore.  Every URL transformation in this
development is the identity on such characters, which the safe-input theorems
hypothesise. -/
def isSafeChar (c : Char) : Bool :=
  isASCIIAlnum c || decide (c.toNat = 45) || decide (c.toNat = 95)

/-- Go `url.Parse` on the domain this code can reach: it splits the fragment,
recognises an optional `scheme:`, splits the query at the first `?`, then
parses either an authority form `//host[/path]` (with a plain host) or a
rooted path.  It returns none where Go Parse errors (control characters, a
leading colon, malformed escapes) and also on URL shapes outside this domain
(user info, ports, opaque or rootless forms), which no input of the embedded
code produces. -/
def parseGoURL (s : String) : Option GoURL :=
  if containsCtlChar s then none
  else
    let fsplit := breakAt '#' s.data
    let fragChars := fsplit.2.getD []
    match unescapeChars fragChars with
    | none => none
    | some _ =>
      let schemeSplit : Option (List Char × List Char) :=
        match breakAt ':' fsplit.1 with
        | (before, some after) =>
          if before.isEmpty then none
          else if before.all isSchemeTailChar && (before.head?.map isASCIIAlphaChar).getD false then
            some (before.map Char.toLower, after)
          else some ([], fsplit.1)
        | (before, none) => some ([], before)
      match schemeSplit with
      | none => none
      | some (scheme, rest0) =>
        let qsplit := breakAt '?' rest0
        let rawQuery := qsplit.2.getD []
        match qsplit.1 with
        | '/' :: '/' :: rest2 =>
          if scheme.isEmpty ∧ rest2.head? = some '/' then
            (setPathModel ⟨'/' :: '/' :: rest2⟩).map fun p =>
              { scheme := ⟨scheme⟩, host := "", epath := p, rawQuery := ⟨rawQuery⟩, frag := ⟨fragChars⟩ }
          else
            let hsplit := breakAt '/' rest2
            let pathChars : List Char :=
              match hsplit.2 with
              | some t => '/' :: t
              | none => []
            if hsplit.1.all isPlainHostChar then
              (setPathModel ⟨pathChars⟩).map fun p =>
                { scheme := ⟨scheme⟩, host := ⟨hsplit.1⟩, epath := p, rawQuery := ⟨rawQuery⟩, frag := ⟨fragChars⟩ }
            else none
        | '/' :: rest2 =>
          (setPathModel ⟨'/' :: rest2⟩).map fun p =>
            { scheme := ⟨scheme⟩, host := "", epath := p, rawQuery := ⟨rawQuery⟩, frag := ⟨fragChars⟩ }
        | _ => none

/-- Go `URL.ResolveReference`; the references this code produces always carry
no scheme, no host and a nonempty rooted path, so the base path only feeds the
degenerate middle case. -/
def resolveReference (base ref : GoURL) : GoURL :=
  if ref.scheme ≠ "" then
    { ref with epath := resolvePathAbs ref.epath }
  else if ref.epath = "" ∧ ref.rawQuery = "" then
    { base with
      epath := resolvePathAbs base.epath,
      frag := if ref.frag = "" then base.frag else ref.frag }
  else
    { scheme := base.scheme, host := base.host, epath := resolvePathAbs ref.epath,
      rawQuery := ref.rawQuery, frag := ref.frag }

/-- Go `URL.String` on the URL shapes of this model (hosts from
`isPlainHostChar` escape to themselves, and paths are empty or rooted, so the
slash-insertion branch never fires). -/
def urlString (u : GoURL) : String :=
  (if u.scheme ≠ "" then u.scheme ++ ":" else "") ++
  (if u.scheme ≠ "" ∨ u.host ≠ "" then
     (if u.host ≠ "" ∨ u.epath ≠ "" then "//" else "") ++ u.host
   else "") ++
  u.epath ++
  (if u.rawQuery ≠ "" then "?" ++ u.rawQuery else "") ++
  (if u.frag ≠ "" then "#" ++ u.frag else "")

/-- Go `url.Values` modelled as key-value pairs in insertion order. -/
abbrev URLValues := List (String × String)

/-- Go `url.ParseQuery` as `URL.Query()` uses it (errors swallowed): split on
ampersands, cut each item at the first equals sign, unescape both halves, and
skip empty or malformed items. -/
def parseQueryModel (s : String) : URLValues :=
  (splitChar '&' s.data).foldr
    (fun item acc =>
      if item.isEmpty then acc
      else if item.contains ';' then acc
      else
        let p := breakAt '=' item
        match unescapeQueryChars p.1, unescapeQueryChars (p.2.getD []) with
        | some k, some v => (⟨k⟩, ⟨v⟩) :: acc
        | _, _ => acc)
    []

/-- Byte-wise strict order on strings, as Go `sort.Strings` compares (the
strings this code sorts are ASCII, where character order and byte order
agree). -/
def charListLt : List Char → List Char → Bool
  | [], [] => false
  | [], _ :: _ => true
  | _ :: _, [] => false
  | a :: as, b :: bs => decide (a.toNat < b.toNat) || (a = b && charListLt as bs)

/-- Inserts a key into a sorted duplicate-free key list. -/
def insertSortedKey (x : String) : List String → List String
  | [] => [x]
  | y :: ys =>
    if charListLt x.data y.data then x :: y :: ys
    else if x = y then y :: ys
    else y :: insertSortedKey x ys

/-- The sorted duplicate-free key set of a query, as Go `Values.Encode`
iterates it. -/
def sortedKeys (q : URLValues) : List String :=
  (q.map Prod.fst).foldr insertSortedKey []

/-- Go `Values.Encode`: keys in sorted order, values of one key in insertion
order, both halves query-escaped. -/
def encodeQuery (q : URLValues) : String :=
  String.intercalate "&"
    ((sortedKeys q).flatMap fun k =>
      (q.filter fun p => p.1 == k).map fun p => queryEscape k ++ "=" ++ queryEscape p.2)

/-- HTTPMethod constants of the source; their Go values are the lowercase
method names used verbatim in requests. -/
inductive HTTPMethod where
  | delete
  | get
  | head
  | put
deriving DecidableEq, Repr

/-- The string value of an HTTPMethod constant. -/
def HTTPMethod.goString : HTTPMethod → String
  | .delete => "delete"
  | .get => "get"
  | .head => "head"
  | .put => "put"

/-- ConsistencyMode constants of the source. -/
inductive ConsistencyMode where
  | eventual
  | strong
deriving DecidableEq, Repr

/-- SIGNED_URL_ACCEPT_HEADER constant of the source. -/
def SIGNED_URL_ACCEPT_HEADER : String := "application/json;type=signed-url"

/-- Metadata of the source is `map[string]interface{}`; the client never reads
it (all metadata handling there is commented out), so string values suffice
for the embedding. -/
abbrev Metadata := List (String × String)

/-- Client from the source. -/
structure Client where
  apiURL : String := ""
  consistency : ConsistencyMode := .eventual
  edgeURL : String := ""
  region : String := ""
  siteID : String := ""
  token : String := ""
  uncachedEdgeURL : String := ""
deriving DecidableEq, Repr

/-- GetFinalRequestOptions from the source. -/
structure GetFinalRequestOptions where
  consistency : Option ConsistencyMode := none
  key : String := ""
  metadata : Metadata := []
  method : HTTPMethod
  parameters : URLValues := []
  storeName : String := ""
deriving DecidableEq, Repr

/-- MakeStoreRequestOptions from the source (the body, a reader, plays no part
in request resolution and is omitted). -/
structure MakeStoreRequestOptions where
  consistency : Option ConsistencyMode := none
  headers : Headers := []
  key : String := ""
  metadata : Metadata := []
  method : HTTPMethod
  parameters : URLValues := []
  storeName : String := ""
deriving DecidableEq, Repr

/-- Assignment into a Go `map[string]string` modelled as replace-or-append on
an association list. -/
def mapSet (m : Headers) (k v : String) : Headers :=
  if m.any fun p => p.1 == k then
    m.map fun p => if p.1 == k then (k, v) else p
  else m ++ [(k, v)]

/-- The logical path `/{siteID}[/{storeName}][/{key}]` of
`Client.GetFinalRequest`, exactly the urlPath chain at its top. -/
def logicalPath (c : Client) (options : GetFinalRequestOptions) : String :=
  let urlPath := "/" ++ c.siteID
  let urlPath := if options.storeName ≠ "" then urlPath ++ "/" ++ options.storeName else urlPath
  if options.key ≠ "" then urlPath ++ "/" ++ options.key else urlPath

/-- The URL-building first half of `Client.GetFinalRequest`: the logical path,
parsed and resolved against the API base (defaulting to
https://api.netlify.com), with the extra parameters and the region re-encoded
into the query.  Returns none where the source would `log.Fatal` on a URL
parse error. -/
def Client.buildAPIURL (c : Client) (options : GetFinalRequestOptions) : Option GoURL :=
  let urlPath := logicalPath c options
  match parseGoURL ("/api/v1/blobs" ++ urlPath) with
  | none => none
  | some u =>
    match (if c.apiURL ≠ "" then parseGoURL c.apiURL else parseGoURL "https://api.netlify.com") with
    | none => none
    | some base =>
      let url := resolveReference base u
      let q := parseQueryModel url.rawQuery
      let q := q ++ options.parameters
      let q := if c.region ≠ "" then q ++ [("region", c.region)] else q
      some { url with rawQuery := encodeQuery q }

/-- Client.GetFinalRequest from the source, over an explicit transport.  The
second component is the trace of HTTP requests it issues (at most the one
signed-URL exchange).  The source's edge-URL and consistency branch, its
metadata encoding and headers, and the parsing of the signed URL out of the 200
response body are all commented out there, so they are absent here too: on a
200 the function returns an empty header map and the built API URL. -/
def Client.GetFinalRequest (c : Client) (transport : Transport)
    (options : GetFinalRequestOptions) :
    Except GoError (Headers × String) × List HTTPRequest :=
  match c.buildAPIURL options with
  | none => (.error .fatalExit, [])
  | some url =>
    let apiHeaders : Headers := [("authorization", "Bearer " ++ c.token)]
    if options.storeName = "" ∨ options.key = "" then
      (.ok (apiHeaders, urlString url), [])
    else if options.method = .head ∨ options.method = .delete then
      (.ok (apiHeaders, urlString url), [])
    else
      let req : HTTPRequest :=
        { method := options.method.goString, url := urlString url,
          headers := headerAdd (headerAdd [] "authorization" ("Bearer " ++ c.token))
            "accept" SIGNED_URL_ACCEPT_HEADER }
      match transport req with
      | none => (.error .nilDereference, [req])
      | some res =>
        if res.statusCode ≠ 200 then (.error (NewBlobsInternalError res), [req])
        else (.ok (([] : Headers), urlString url), [req])

/-- Client.MakeRequest from the source: resolve, merge caller headers, add the
cache-control header on PUT, and perform the data request. -/
def Client.MakeRequest (c : Client) (transport : Transport)
    (options : MakeStoreRequestOptions) :
    Except GoError HTTPResponse × List HTTPRequest :=
  match c.GetFinalRequest transport
    { consistency := options.consistency, key := options.key,
      metadata := options.metadata, method := options.method,
      parameters := options.parameters, storeName := options.storeName } with
  | (.error e, trace) => (.error e, trace)
  | (.ok (headers0, url), trace) =>
    let headers1 := options.headers.foldl (fun m p => mapSet m p.1 p.2) headers0
    let headers2 :=
      if options.method = .put then
        mapSet headers1 "cache-control" "max-age=0, stale-while-revalidate=60"
      else headers1
    let req : HTTPRequest :=
      { method := options.method.goString, url := url,
        headers := headers2.foldl (fun h p => headerAdd h p.1 p.2) [] }
    match transport req with
    | none => (.error .transportFailure, trace ++ [req])
    | some res => (.ok res, trace ++ [req])

/-- Store from the source. -/
structure Store where
  client : Client
  name : String
deriving DecidableEq, Repr

/-- validateStoreName from the source: rejects `/` and `%2F`, then names over
64 UTF-8 bytes. -/
def validateStoreName (name : String) : Option String :=
  if goContains name "/" || goContains name "%2F" then
    some "Store name must not contain forward slashes (/)"
  else if name.utf8ByteSize > 64 then
    some "Store name must be a sequence of Unicode characters whose UTF-8 encoding is at most 64 bytes long"
  else none

/-- NewStore from the source. -/
def NewStore (storeName : String) (client : Client) : Except String Store :=
  match validateStoreName storeName with
  | some e => .error e
  | none => .ok { client := client, name := storeName }

/-- Store.Get from the source: issue the request, surface transport errors,
map a 404 to a nil body with no error, classify other non-200 statuses, and
otherwise hand back the body. -/
def Store.Get (s : Store) (transport : Transport) (key : String) :
    Except GoError (Option String) × List HTTPRequest :=
  match s.client.MakeRequest transport
    { consistency := some s.client.consistency, headers := [], key := key,
      metadata := [], method := .get, parameters := [], storeName := s.name } with
  | (.error e, trace) => (.error e, trace)
  | (.ok res, trace) =>
    if res.statusCode = 404 then (.ok none, trace)
    else if res.statusCode ≠ 200 then (.error (NewBlobsInternalError res), trace)
    else (.ok (some res.body), trace)

/-- Modelled from the spec: JSON escaping of one character in a metadata
string.  Quote and backslash take a backslash escape; characters outside
printable ASCII are written as a four-digit hexadecimal escape (faithful up to
the Basic Multilingual Plane, which the round-trip theorem assumes). -/
def escJsonChar (c : Char) : List Char :=
  if c = '"' then ['\\', '"']
  else if c = '\\' then ['\\', '\\']
  else if decide (c.toNat < 32) || decide (126 < c.toNat) then
    ['\\', 'u', upperHexDigit (c.toNat / 4096 % 16), upperHexDigit (c.toNat / 256 % 16),
     upperHexDigit (c.toNat / 16 % 16), upperHexDigit (c.toNat % 16)]
  else [c]

/-- Modelled from the spec: JSON escaping of a character sequence. -/
def escJsonChars (l : List Char) : List Char :=
  l.flatMap escJsonChar

/-- Modelled from the spec: a JSON string literal. -/
def jsonStrChars (s : String) : List Char :=
  '"' :: escJsonChars s.data ++ ['"']

/-- Modelled from the spec: the comma-separated key-value pairs of a JSON
object, each pair rendered as "key":"value". -/
def serializePairsSep : Metadata → List Char
  | [] => []
  | [(k, v)] => jsonStrChars k ++ ':' :: jsonStrChars v
  | (k, v) :: rest => jsonStrChars k ++ ':' :: jsonStrChars v ++ ',' :: serializePairsSep rest

/-- Modelled from the spec: serialisation of the metadata mapping to a JSON
object. -/
def jsonOfMetadata (m : Metadata) : List Char :=
  '{' :: serializePairsSep m ++ ['}']

/-- Modelled from the spec: parses the body of a JSON string literal up to its
closing quote, returning the decoded characters and the remainder. -/
def parseStrBody : List Char → Option (List Char × List Char)
  | [] => none
  | c :: rest =>
    if c = '"' then some ([], rest)
    else if c = '\\' then
      match rest with
      | [] => none
      | e :: rest2 =>
        if e = '"' then (parseStrBody rest2).map fun p => ('"' :: p.1, p.2)
        else if e = '\\' then (parseStrBody rest2).map fun p => ('\\' :: p.1, p.2)
        else if e = 'u' then
          match rest2 with
          | h1 :: h2 :: h3 :: h4 :: rest3 =>
            match hexVal h1, hexVal h2, hexVal h3, hexVal h4 with
            | some a, some b, some cc, some d =>
              (parseStrBody rest3).map fun p =>
                (Char.ofNat (((a * 16 + b) * 16 + cc) * 16 + d) :: p.1, p.2)
            | _, _, _, _ => none
          | _ => none
        else none
    else (parseStrBody rest).map fun p => (c :: p.1, p.2)

/-- Modelled from the spec: parses one or more "key":"value" pairs followed by
the closing brace of the object; the fuel bounds the number of pairs. -/
def parsePairs : Nat → List Char → Option (Metadata × List Char)
  | 0, _ => none
  | fuel + 1, l =>
    match l with
    | [] => none
    | c0 :: l1 =>
      if c0 = '"' then
        match parseStrBody l1 with
        | none => none
        | some (k, l2) =>
          match l2 with
          | c1 :: c2 :: l3 =>
            if c1 = ':' ∧ c2 = '"' then
              match parseStrBody l3 with
              | none => none
              | some (v, l4) =>
                match l4 with
                | [] => none
                | c3 :: l5 =>
                  if c3 = ',' then (parsePairs fuel l5).map fun p => ((⟨k⟩, ⟨v⟩) :: p.1, p.2)
                  else if c3 = '}' then some ([(⟨k⟩, ⟨v⟩)], l5)
                  else none
            else none
          | _ => none
      else none

/-- Modelled from the spec: parses a whole JSON object of string keys and
string values, with nothing left over. -/
def parseMetadataChars (l : List Char) : Option Metadata :=
  match l with
  | [] => none
  | c0 :: rest =>
    if c0 = '{' then
      if rest = ['}'] then some []
      else
        match parsePairs rest.length rest with
        | some (m, []) => some m
        | _ => none
    else none

/-- Character of one base64 sextet in the standard alphabet. -/
def b64Char (n : Nat) : Char :=
  if n < 26 then Char.ofNat (65 + n)
  else if n < 52 then Char.ofNat (97 + (n - 26))
  else if n < 62 then Char.ofNat (48 + (n - 52))
  else if n = 62 then '+'
  else '/'

/-- Standard base64 encoding of a byte sequence, with padding. -/
def base64encode : List Nat → List Char
  | [] => []
  | [a] => [b64Char (a / 4), b64Char (a % 4 * 16), '=', '=']
  | [a, b] => [b64Char (a / 4), b64Char (a % 4 * 16 + b / 16), b64Char (b % 16 * 4), '=']
  | a :: b :: c :: rest =>
    b64Char (a / 4) :: b64Char (a % 4 * 16 + b / 16) :: b64Char (b % 16 * 4 + c / 64) ::
      b64Char (c % 64) :: base64encode rest

/-- Value of one base64 character. -/
def b64Val (c : Char) : Option Nat :=
  let n := c.toNat
  if 65 ≤ n ∧ n ≤ 90 then some (n - 65)
  else if 97 ≤ n ∧ n ≤ 122 then some (n - 71)
  else if 48 ≤ n ∧ n ≤ 57 then some (n + 4)
  else if n = 43 then some 62
  else if n = 47 then some 63
  else none

/-- Standard base64 decoding: four-character quanta, with padding allowed only
in the final quantum. -/
def base64decode : List Char → Option (List Nat)
  | [] => some []
  | c1 :: c2 :: c3 :: c4 :: rest =>
    match b64Val c1, b64Val c2 with
    | some a, some b =>
      if c3 = '=' ∧ c4 = '=' ∧ rest = [] then some [a * 4 + b / 16]
      else
        match b64Val c3 with
        | some c =>
          if c4 = '=' ∧ rest = [] then some [a * 4 + b / 16, b % 16 * 16 + c / 4]
          else
            match b64Val c4 with
            | some d =>
              (base64decode rest).map fun l =>
                (a * 4 + b / 16) :: (b % 16 * 16 + c / 4) :: (c % 4 * 64 + d) :: l
            | none => none
        | none => none
    | _, _ => none
  | _ => none

/-- Modelled from the spec: the metadata encoder is absent from src (it exists
only as commented-out references to encodeMetadata and the metadata headers);
per the spec it serialises the metadata mapping to JSON, base64-encodes the
UTF-8 bytes, and prefixes the fixed marker so the receiving side can
distinguish encoded-metadata payloads. -/
def encodeMetadata (m : Metadata) : String :=
  "b64;" ++ ⟨base64encode ((jsonOfMetadata m).map Char.toNat)⟩

/-- Modelled from the spec: decoding by the inverse steps — strip the fixed
marker, base64-decode, and parse the JSON object back into a mapping. -/
def decodeMetadata (s : String) : Option Metadata :=
  match s.data with
  | 'b' :: '6' :: '4' :: ';' :: rest =>
    match base64decode rest with
    | none => none
    | some bytes => parseMetadataChars (bytes.map Char.ofNat)
  | _ => none

/-!
Claim theorems.
-/

/-- C1.  For a GET with non-empty store name and key on the API-mediated
branch, the code does issue exactly one HTTP request of the operation's
method to the built API URL with the signed-URL accept header; but on a 200
response whose body is a JSON object carrying the signed URL
https://signed.example/x, the URL it returns is the built API URL, not that
signed URL — the parsing of the response body is commented out in the source,
so the claim's second half fails on the code. -/
theorem C1_resolve_returns_apiURL_not_signedURL :
    Client.GetFinalRequest { siteID := "site1", token := "t" }
      (fun _ => some { statusCode := 200, headers := [],
                       body := "\x7b\"url\":\"https://signed.example/x\"\x7d" })
      { method := .get, storeName := "construction", key := "nails" } =
    (.ok ([], "https://api.netlify.com/api/v1/blobs/site1/construction/nails"),
     [{ method := "get", url := "https://api.netlify.com/api/v1/blobs/site1/construction/nails",
        headers := [("Authorization", "Bearer t"), ("Accept", SIGNED_URL_ACCEPT_HEADER)] }]) ∧
    "https://api.netlify.com/api/v1/blobs/site1/construction/nails" ≠
      "https://signed.example/x" :=
  ⟨rfl, by decide⟩

/-- C2.  With edgeURL set, consistency strong and uncachedEdgeURL empty, the
code neither fails with a consistency error nor touches the network — but not
because of the guard the claim describes: the whole edge branch of
GetFinalRequest is commented out in the source, so resolution succeeds down
the API branch (the transport is never invoked: the trace is empty and the
result is independent of it being the always-failing transport). -/
theorem C2_strong_without_uncached_does_not_fail :
    Client.GetFinalRequest
      { siteID := "site1", token := "t", edgeURL := "https://edge.example",
        consistency := .strong, uncachedEdgeURL := "" }
      (fun _ => none)
      { method := .head, storeName := "s", key := "k" } =
    (.ok ([("authorization", "Bearer t")], "https://api.netlify.com/api/v1/blobs/site1/s/k"),
     []) :=
  rfl

/-- C3.  A 500 response carrying wire headers NF-Error: disk full and
NF-Request-ID: abc123 is classified by NewBlobsInternalError with the bare
status-code fallback: the source reads the keys NF_ERROR and NF_REQUEST_ID
(underscores), which canonicalise to Nf_error and Nf_request_id and never
match the stored canonical keys Nf-Error and Nf-Request-Id, so the message
contains neither the error detail nor the request id. -/
theorem C3_nfError_header_ignored :
    NewBlobsInternalError
      { statusCode := 500,
        headers := wireHeaders [("NF-Error", "disk full"), ("NF-Request-ID", "abc123")],
        body := "" } =
    .blobsInternal "Netlify Blobs has generated an internal error (500 status code)" ∧
    goContains "Netlify Blobs has generated an internal error (500 status code)"
      "disk full" = false ∧
    goContains "Netlify Blobs has generated an internal error (500 status code)"
      "abc123" = false :=
  ⟨rfl, by decide, by decide⟩

/-- C6.  When the signing round trip itself fails, Go's RoundTrip returns a
nil response alongside the error, and the source passes that nil response
straight into NewBlobsInternalError, whose header reads dereference it: the
outcome is a runtime panic, not a returned BlobsInternalError value. -/
theorem C6_transport_error_panics :
    Client.GetFinalRequest { siteID := "site1", token := "t" }
      (fun _ => none)
      { method := .get, storeName := "construction", key := "nails" } =
    (.error .nilDereference,
     [{ method := "get", url := "https://api.netlify.com/api/v1/blobs/site1/construction/nails",
        headers := [("Authorization", "Bearer t"), ("Accept", SIGNED_URL_ACCEPT_HEADER)] }]) :=
  rfl

set_option maxRecDepth 40000 in
/-- C7.  A key of 601 UTF-8 bytes passes through GetFinalRequest with no
validation error at all: the resolver even issues the signing request for it
(the trace below holds that one request).  The source contains no key
validation — validateStoreName is the only validator and it never sees
keys. -/
theorem C7_long_key_not_validated :
    (String.mk (List.replicate 601 'a')).utf8ByteSize = 601 ∧
    Client.GetFinalRequest { siteID := "site1", token := "t" }
      (fun _ => some { statusCode := 200, headers := [], body := "" })
      { method := .get, storeName := "s", key := String.mk (List.replicate 601 'a') } =
    (.ok ([], "https://api.netlify.com/api/v1/blobs/site1/s/" ++ String.mk (List.replicate 601 'a')),
     [{ method := "get",
        url := "https://api.netlify.com/api/v1/blobs/site1/s/" ++ String.mk (List.replicate 601 'a'),
        headers := [("Authorization", "Bearer t"), ("Accept", SIGNED_URL_ACCEPT_HEADER)] }]) :=
  ⟨by decide, rfl⟩

/-- Helper: on the exchange branch (store name and key present, method GET or
PUT) GetFinalRequest issues exactly the signing request and dispatches on the
transport's answer. -/
theorem getFinalRequest_signing (c : Client) (transport : Transport)
    (options : GetFinalRequestOptions)
    (hn : ¬ options.storeName = "") (hk : ¬ options.key = "")
    (hm : options.method = .get ∨ options.method = .put)
    (u : GoURL) (hu : c.buildAPIURL options = some u) :
    c.GetFinalRequest transport options =
      (let req : HTTPRequest :=
        { method := options.method.goString, url := urlString u,
          headers := [("Authorization", "Bearer " ++ c.token),
                      ("Accept", SIGNED_URL_ACCEPT_HEADER)] }
      match transport req with
      | none => (.error .nilDereference, [req])
      | some res =>
        if res.statusCode ≠ 200 then (.error (NewBlobsInternalError res), [req])
        else (.ok (([] : Headers), urlString u), [req])) := by
  have hmethod : ¬ (options.method = .head ∨ options.method = .delete) := by
    rcases hm with hm | hm <;> simp [hm]
  have hheaders :
      headerAdd (headerAdd [] "authorization" ("Bearer " ++ c.token))
        "accept" SIGNED_URL_ACCEPT_HEADER =
      [("Authorization", "Bearer " ++ c.token), ("Accept", SIGNED_URL_ACCEPT_HEADER)] := rfl
  simp only [Client.GetFinalRequest, hu, hheaders]
  rw [if_neg (by simp [hn, hk]), if_neg hmethod]

/-- Helper: on the direct branches (no store name or no key, or HEAD/DELETE)
GetFinalRequest returns the bearer header map and built URL with an empty
request trace. -/
theorem getFinalRequest_direct (c : Client) (transport : Transport)
    (options : GetFinalRequestOptions)
    (h : options.storeName = "" ∨ options.key = "" ∨
         options.method = .head ∨ options.method = .delete)
    (u : GoURL) (hu : c.buildAPIURL options = some u) :
    c.GetFinalRequest transport options =
      (.ok ([("authorization", "Bearer " ++ c.token)], urlString u), []) := by
  simp only [Client.GetFinalRequest, hu]
  by_cases h1 : options.storeName = "" ∨ options.key = ""
  · rw [if_pos h1]
  · rw [if_neg h1]
    have h2 : options.method = .head ∨ options.method = .delete := by tauto
    rw [if_pos h2]

/-- C5.  On the API-mediated branch, an operation with an empty store name or
an empty key, or whose method is HEAD or DELETE, resolves directly: the result
is the bearer-token header map and the built URL, the request trace is empty,
and the transport is never consulted. -/
theorem C5_direct_branches_no_request (c : Client) (transport : Transport)
    (options : GetFinalRequestOptions)
    (h : options.storeName = "" ∨ options.key = "" ∨
         options.method = .head ∨ options.method = .delete)
    (u : GoURL) (hu : c.buildAPIURL options = some u) :
    c.GetFinalRequest transport options =
      (.ok ([("authorization", "Bearer " ++ c.token)], urlString u), []) :=
  getFinalRequest_direct c transport options h u hu

/-- Closed instantiation of C5: a HEAD with store name and key resolves to the
built URL and bearer header without any HTTP request, even against a failing
transport. -/
theorem C5_witness :
    Client.GetFinalRequest { siteID := "site1", token := "t" } (fun _ => none)
      { method := .head, storeName := "st", key := "k" } =
      (.ok ([("authorization", "Bearer " ++ "t")],
        urlString { scheme := "https", host := "api.netlify.com",
                    epath := "/api/v1/blobs/site1/st/k", rawQuery := "", frag := "" }), []) :=
  C5_direct_branches_no_request _ _ _ (Or.inr (Or.inr (Or.inl rfl))) _ (by decide)

/-- C8.  A get of a key against a transport that answers the signing exchange
with a 200 and the data request with a 404 has caller-visible result "not
found": a nil body and no error, after exactly the two requests. -/
theorem C8_get_404_yields_not_found (c : Client) (name key : String)
    (hn : ¬ name = "") (hk : ¬ key = "")
    (u : GoURL)
    (hu : c.buildAPIURL { consistency := some c.consistency, key := key, metadata := [],
                          method := .get, parameters := [], storeName := name } = some u)
    (sresp dresp : HTTPResponse) (hs : sresp.statusCode = 200) (hd : dresp.statusCode = 404) :
    Store.Get { client := c, name := name }
      (fun req => some (if headerGet req.headers "Accept" = SIGNED_URL_ACCEPT_HEADER
                        then sresp else dresp)) key =
      (.ok none,
       [{ method := "get", url := urlString u,
          headers := [("Authorization", "Bearer " ++ c.token),
                      ("Accept", SIGNED_URL_ACCEPT_HEADER)] },
        { method := "get", url := urlString u, headers := [] }]) := by
  have hsign := getFinalRequest_signing c
    (fun req => some (if headerGet req.headers "Accept" = SIGNED_URL_ACCEPT_HEADER
                      then sresp else dresp))
    { consistency := some c.consistency, key := key, metadata := [],
      method := .get, parameters := [], storeName := name }
    hn hk (Or.inl rfl) u hu
  have hacc : headerGet [("Authorization", "Bearer " ++ c.token),
      ("Accept", SIGNED_URL_ACCEPT_HEADER)] "Accept" = SIGNED_URL_ACCEPT_HEADER := rfl
  simp only at hsign
  rw [hacc, if_pos rfl, hs] at hsign
  rw [if_neg (by simp)] at hsign
  have hput : (if HTTPMethod.get = HTTPMethod.put then
      mapSet ([] : Headers) "cache-control" "max-age=0, stale-while-revalidate=60"
    else ([] : Headers)) = [] := rfl
  have hge : headerGet ([] : Headers) "Accept" = "" := rfl
  have hno : (("" : String) = SIGNED_URL_ACCEPT_HEADER) = False := by simp [SIGNED_URL_ACCEPT_HEADER]
  simp only [Store.Get, Client.MakeRequest, hsign, List.foldl_nil, hput, hge, hno, if_false,
    hd, HTTPMethod.goString]
  simp

/-- Closed instantiation of C8: the scenario of the spec, store
"construction", key "missing", data request answered 404. -/
theorem C8_witness :
    Store.Get { client := { siteID := "site1", token := "t" }, name := "construction" }
      (fun req => some (if headerGet req.headers "Accept" = SIGNED_URL_ACCEPT_HEADER
                        then { statusCode := 200, headers := [], body := "" }
                        else { statusCode := 404, headers := [], body := "" })) "missing" =
      (.ok none,
       [{ method := "get",
          url := urlString { scheme := "https", host := "api.netlify.com",
                             epath := "/api/v1/blobs/site1/construction/missing",
                             rawQuery := "", frag := "" },
          headers := [("Authorization", "Bearer " ++ "t"),
                      ("Accept", SIGNED_URL_ACCEPT_HEADER)] },
        { method := "get",
          url := urlString { scheme := "https", host := "api.netlify.com",
                             epath := "/api/v1/blobs/site1/construction/missing",
                             rawQuery := "", frag := "" },
          headers := [] }]) :=
  C8_get_404_yields_not_found { siteID := "site1", token := "t" } "construction" "missing"
    (by decide) (by decide) _ (by decide) _ _ rfl rfl

/-- C10.  Store-name validation is case-sensitive about the percent-encoding
of the slash: NewStore rejects every name containing "/" or the uppercase
"%2F", yet it accepts the name "a%2fb", which contains the lowercase
percent-encoding "%2f" of a slash. -/
theorem C10_store_name_percent2f_case_sensitivity :
    (∀ (name : String) (client : Client),
        goContains name "/" = true ∨ goContains name "%2F" = true →
        NewStore name client = .error "Store name must not contain forward slashes (/)") ∧
    goContains "a%2fb" "%2f" = true ∧
    ∀ client : Client, NewStore "a%2fb" client = .ok { client := client, name := "a%2fb" } := by
  refine ⟨?_, by decide, fun client => rfl⟩
  intro name client h
  unfold NewStore validateStoreName
  rcases h with h | h <;> simp [h]

/-- Closed instantiation of C10's universal half: the names "a/b" and "x%2Fy"
are both rejected. -/
theorem C10_witness :
    NewStore "a/b" {} = .error "Store name must not contain forward slashes (/)" ∧
    NewStore "x%2Fy" {} = .error "Store name must not contain forward slashes (/)" :=
  ⟨C10_store_name_percent2f_case_sensitivity.1 "a/b" {} (Or.inl (by decide)),
   C10_store_name_percent2f_case_sensitivity.1 "x%2Fy" {} (Or.inr (by decide))⟩

theorem safe_ne {c : Char} (h : isSafeChar c = true) {d : Char}
    (hd : isSafeChar d = false) : ¬ c = d := by
  intro e; subst e; simp [h] at hd

theorem char_ne_of_toNat {c d : Char} (h : ¬ c.toNat = d.toNat) : ¬ c = d :=
  fun e => h (by rw [e])

theorem isSafeChar_cases {c : Char} (h : isSafeChar c = true) :
    (48 ≤ c.toNat ∧ c.toNat ≤ 57) ∨ (65 ≤ c.toNat ∧ c.toNat ≤ 90) ∨
    (97 ≤ c.toNat ∧ c.toNat ≤ 122) ∨ c.toNat = 45 ∨ c.toNat = 95 := by
  simp [isSafeChar, isASCIIAlnum] at h
  tauto

theorem isPlainHostChar_cases {c : Char} (h : isPlainHostChar c = true) :
    (48 ≤ c.toNat ∧ c.toNat ≤ 57) ∨ (65 ≤ c.toNat ∧ c.toNat ≤ 90) ∨
    (97 ≤ c.toNat ∧ c.toNat ≤ 122) ∨ c.toNat = 45 ∨ c.toNat = 46 ∨ c.toNat = 95 := by
  simp [isPlainHostChar, isASCIIAlnum] at h
  tauto

theorem breakAt_none (sep : Char) (l : List Char) (h : ∀ c ∈ l, ¬ c = sep) :
    breakAt sep l = (l, none) := by
  induction l with
  | nil => rfl
  | cons c rest ih =>
    have hc : ¬ c = sep := h c (by simp)
    simp only [breakAt, if_neg hc]
    simp only [ih (fun d hd => h d (by simp [hd]))]

theorem breakAt_append (sep : Char) (a b : List Char) (h : ∀ c ∈ a, ¬ c = sep) :
    breakAt sep (a ++ sep :: b) = (a, some b) := by
  induction a with
  | nil => simp [breakAt]
  | cons c rest ih =>
    have hc : ¬ c = sep := h c (by simp)
    simp only [List.cons_append, breakAt, if_neg hc, List.append_eq]
    simp only [ih (fun d hd => h d (by simp [hd]))]

theorem unescape_nopct (l : List Char) (h : ∀ c ∈ l, ¬ c = '%') :
    unescapeChars l = some l := by
  induction l with
  | nil => rfl
  | cons c rest ih =>
    rw [unescapeChars.eq_def]
    simp only [if_neg (h c (by simp))]
    rw [ih (fun d hd => h d (by simp [hd]))]
    rfl

theorem splitChar_ne_nil (sep : Char) (l : List Char) : ¬ splitChar sep l = [] := by
  cases l with
  | nil => intro h; rw [splitChar] at h; exact absurd h (by simp)
  | cons c rest =>
    intro h
    rw [splitChar] at h
    split at h
    · exact absurd h (by simp)
    · split at h <;> exact absurd h (by simp)

theorem splitChar_cons_ex (sep : Char) (l : List Char) :
    ∃ g gs, splitChar sep l = g :: gs := by
  cases hS : splitChar sep l with
  | nil => exact absurd hS (splitChar_ne_nil sep l)
  | cons g gs => exact ⟨g, gs, rfl⟩

theorem joinChar_splitChar (sep : Char) (l : List Char) :
    joinChar sep (splitChar sep l) = l := by
  induction l with
  | nil => rfl
  | cons c rest ih =>
    by_cases hc : c = sep
    · simp only [splitChar, if_pos hc]
      obtain ⟨g, gs, hS⟩ := splitChar_cons_ex sep rest
      rw [hS]
      rw [hS] at ih
      simp only [joinChar]
      rw [ih, hc]
      simp
    · simp only [splitChar, if_neg hc]
      obtain ⟨g, gs, hS⟩ := splitChar_cons_ex sep rest
      rw [hS]
      rw [hS] at ih
      cases gs with
      | nil => simp only [joinChar] at ih ⊢; rw [ih]
      | cons g2 gs2 =>
        simp only [joinChar] at ih ⊢
        rw [← ih]
        simp

theorem mem_splitChar (sep : Char) (l : List Char) (g : List Char)
    (hg : g ∈ splitChar sep l) (c : Char) (hc : c ∈ g) : c ∈ l := by
  induction l generalizing g with
  | nil =>
    rw [splitChar] at hg
    simp at hg
    subst hg
    simp at hc
  | cons d rest ih =>
    by_cases hd : d = sep
    · simp only [splitChar, if_pos hd] at hg
      rcases List.mem_cons.mp hg with h1 | h1
      · subst h1; simp at hc
      · exact List.mem_cons_of_mem _ (ih g h1 hc)
    · simp only [splitChar, if_neg hd] at hg
      obtain ⟨g', gs, hS⟩ := splitChar_cons_ex sep rest
      rw [hS] at hg
      rcases List.mem_cons.mp hg with h1 | h1
      · subst h1
        rcases List.mem_cons.mp hc with h2 | h2
        · subst h2; simp
        · exact List.mem_cons_of_mem _ (ih g' (by rw [hS]; simp) h2)
      · exact List.mem_cons_of_mem _ (ih g (by rw [hS]; simp [h1]) hc)


theorem foldl_no_dots (src : List (List Char))
    (h : ∀ g ∈ src, ¬ g = ['.'] ∧ ¬ g = ['.', '.']) (acc : List (List Char)) :
    src.foldl
      (fun acc elem =>
        if elem = ['.'] then acc
        else if elem = ['.', '.'] then acc.dropLast
        else acc ++ [elem]) acc = acc ++ src := by
  induction src generalizing acc with
  | nil => simp
  | cons g rest ih =>
    have hg := h g (by simp)
    simp only [List.foldl_cons, if_neg hg.1, if_neg hg.2]
    rw [ih (fun g' hg' => h g' (by simp [hg']))]
    simp

theorem resolvePathAbs_id (s : String)
    (h : ∀ c ∈ s.data, c = '/' ∨ isSafeChar c = true)
    (t : List Char) (h0 : s.data = '/' :: t) : resolvePathAbs s = s := by
  have hdot : ∀ g ∈ splitChar '/' s.data, ¬ g = ['.'] ∧ ¬ g = ['.', '.'] := by
    intro g hg
    constructor <;> intro e <;> subst e
    · have hm := mem_splitChar '/' s.data _ hg '.' (by simp)
      rcases h _ hm with h' | h'
      · exact absurd h' (by decide)
      · exact absurd h' (by decide)
    · have hm := mem_splitChar '/' s.data _ hg '.' (by simp)
      rcases h _ hm with h' | h'
      · exact absurd h' (by decide)
      · exact absurd h' (by decide)
  unfold resolvePathAbs
  dsimp only
  rw [foldl_no_dots _ hdot]
  rw [if_neg ?hlast]
  case hlast =>
    intro hcontra
    rcases hcontra with hcon | hcon <;>
    · have hmem : _ ∈ splitChar '/' s.data := List.mem_of_mem_getLast? (by rw [hcon]; rfl)
      first
        | exact (hdot _ hmem).1 rfl
        | exact (hdot _ hmem).2 rfl
  simp only [List.nil_append]
  rw [joinChar_splitChar]
  rw [h0]
  exact String.ext h0.symm

theorem toLower_eq_self {c : Char} (hc : 97 ≤ c.toNat) : Char.toLower c = c := by
  unfold Char.toLower
  rw [if_neg (by omega)]

theorem map_toLower_eq_self (l : List Char) (h : ∀ c ∈ l, 97 ≤ c.toNat) :
    l.map Char.toLower = l := by
  induction l with
  | nil => rfl
  | cons c rest ih =>
    simp only [List.map_cons, toLower_eq_self (h c (by simp))]
    rw [ih (fun d hd => h d (by simp [hd]))]

theorem flatMap_id (l : List Char) (f : Char → List Char)
    (h : ∀ c ∈ l, f c = [c]) : l.flatMap f = l := by
  induction l with
  | nil => rfl
  | cons c rest ih =>
    simp only [List.flatMap_cons, h c (by simp)]
    rw [ih (fun d hd => h d (by simp [hd]))]
    rfl

theorem queryEscape_safe (s : String) (h : ∀ c ∈ s.data, isSafeChar c = true) :
    queryEscape s = s := by
  apply String.ext
  show s.data.flatMap _ = s.data
  apply flatMap_id
  intro c hc
  have hcase := isSafeChar_cases (h c hc)
  rw [if_neg (by omega)]
  rw [if_pos]
  simp only [isASCIIAlnum, Bool.or_eq_true, Bool.and_eq_true, decide_eq_true_eq]
  omega


theorem parseGoURL_rooted (s : String)
    (h : ∀ c ∈ s.data, c = '/' ∨ isSafeChar c = true)
    (d : Char) (t : List Char) (h0 : s.data = '/' :: d :: t) (hd : isSafeChar d = true) :
    parseGoURL s = some { epath := s } := by
  have hchar : ∀ (x : Char), ¬ x = '/' → isSafeChar x = false → ∀ c ∈ s.data, ¬ c = x := by
    intro x hx1 hx2 c hc e
    subst e
    rcases h c hc with h' | h'
    · exact hx1 h'
    · rw [h'] at hx2; cases hx2
  have hctl : containsCtlChar s = false := by
    simp only [containsCtlChar, List.any_eq_false]
    intro c hc
    rcases h c hc with h' | h'
    · subst h'; decide
    · have hb := isSafeChar_cases h'
      simp only [Bool.or_eq_true, decide_eq_true_eq]
      omega
  have hhash := breakAt_none '#' s.data (hchar '#' (by decide) (by decide))
  have hcolon := breakAt_none ':' s.data (hchar ':' (by decide) (by decide))
  have hq := breakAt_none '?' s.data (hchar '?' (by decide) (by decide))
  have hpct : ∀ c ∈ s.data, ¬ c = '%' := hchar '%' (by decide) (by decide)
  rw [h0] at hhash hcolon hq hpct
  simp only [parseGoURL, hctl, Bool.false_eq_true, if_false, h0, hhash, hcolon, hq,
    Option.getD_none, unescape_nopct [] (by simp)]
  split
  · exfalso
    rename_i rest2 heq
    injection heq with _ heq2
    injection heq2 with hd2 _
    exact safe_ne hd (by decide) hd2
  · rename_i x1 rest2 hno heq
    injection heq with _ heq2
    subst heq2
    simp only [setPathModel, unescape_nopct _ hpct]
    rw [← h0]
    rfl
  · rename_i hne1 hne2
    exact absurd rfl (hne2 (d :: t))


theorem pred_ne (p : Char → Bool) {c : Char} (h : p c = true) {d : Char}
    (hd : p d = false) : ¬ c = d := by
  intro e; subst e; simp [h] at hd

theorem isLowerAlpha_toNat {c : Char} (h : isLowerAlpha c = true) :
    97 ≤ c.toNat ∧ c.toNat ≤ 122 := by
  simp only [isLowerAlpha, Bool.and_eq_true, decide_eq_true_eq] at h
  exact h

theorem parseGoURL_base (sch host : String)
    (hs : ∀ c ∈ sch.data, isLowerAlpha c = true)
    (hs0 : ¬ sch.data = [])
    (hh : ∀ c ∈ host.data, isPlainHostChar c = true) :
    parseGoURL (sch ++ "://" ++ host) = some { scheme := sch, host := host } := by
  have hdata : (sch ++ "://" ++ host).data = sch.data ++ ':' :: '/' :: '/' :: host.data := by
    simp
  have hostAll : ∀ c ∈ ('/' :: '/' :: host.data), isPlainHostChar c = true ∨ c = '/' := by
    intro c hc
    rcases List.mem_cons.mp hc with h1 | h1
    · exact Or.inr h1
    rcases List.mem_cons.mp h1 with h2 | h2
    · exact Or.inr h2
    · exact Or.inl (hh c h2)
  have hctl : containsCtlChar (sch ++ "://" ++ host) = false := by
    simp only [containsCtlChar, List.any_eq_false]
    intro c hc
    rw [hdata] at hc
    simp only [List.mem_append, List.mem_cons] at hc
    simp only [Bool.or_eq_true, decide_eq_true_eq]
    rcases hc with hc | hc | hc | hc | hc
    · have := isLowerAlpha_toNat (hs c hc); omega
    · subst hc; decide
    · subst hc; decide
    · subst hc; decide
    · rcases isPlainHostChar_cases (hh c hc) with h' | h' | h' | h' | h' | h' <;> omega
  have hhash : breakAt '#' (sch.data ++ ':' :: '/' :: '/' :: host.data) =
      (sch.data ++ ':' :: '/' :: '/' :: host.data, none) := by
    apply breakAt_none
    intro c hc
    simp only [List.mem_append, List.mem_cons] at hc
    rcases hc with hc | hc | hc | hc | hc
    · exact pred_ne isLowerAlpha (hs c hc) (by decide)
    · subst hc; decide
    · subst hc; decide
    · subst hc; decide
    · exact pred_ne isPlainHostChar (hh c hc) (by decide)
  have hcolon : breakAt ':' (sch.data ++ ':' :: ('/' :: '/' :: host.data)) =
      (sch.data, some ('/' :: '/' :: host.data)) :=
    breakAt_append ':' sch.data _ (fun c hc => pred_ne isLowerAlpha (hs c hc) (by decide))
  have hempty : sch.data.isEmpty = false := by
    cases hdd : sch.data with
    | nil => exact absurd hdd hs0
    | cons a as => rfl
  have hall : sch.data.all isSchemeTailChar = true := by
    rw [List.all_eq_true]
    intro c hc
    have := isLowerAlpha_toNat (hs c hc)
    simp only [isSchemeTailChar, isASCIIAlnum, Bool.or_eq_true, Bool.and_eq_true,
      decide_eq_true_eq]
    omega
  obtain ⟨c0, r0, hsh⟩ : ∃ c0 r0, sch.data = c0 :: r0 := by
    cases hdd : sch.data with
    | nil => exact absurd hdd hs0
    | cons a as => exact ⟨a, as, rfl⟩
  have hhead : (sch.data.head?.map isASCIIAlphaChar).getD false = true := by
    rw [hsh]
    have := isLowerAlpha_toNat (hs c0 (by rw [hsh]; simp))
    simp only [List.head?_cons, Option.map_some', Option.getD_some, isASCIIAlphaChar,
      Bool.or_eq_true, Bool.and_eq_true, decide_eq_true_eq]
    omega
  have hquery : breakAt '?' ('/' :: '/' :: host.data) = ('/' :: '/' :: host.data, none) := by
    apply breakAt_none
    intro c hc
    rcases hostAll c hc with h1 | h1
    · exact pred_ne isPlainHostChar h1 (by decide)
    · subst h1; decide
  have hslash : breakAt '/' host.data = (host.data, none) :=
    breakAt_none '/' host.data (fun c hc => pred_ne isPlainHostChar (hh c hc) (by decide))
  have hmap := map_toLower_eq_self sch.data (fun c hc => (isLowerAlpha_toNat (hs c hc)).1)
  have hallHost : host.data.all isPlainHostChar = true := by
    rw [List.all_eq_true]; exact hh
  simp only [parseGoURL, hctl, Bool.false_eq_true, if_false, hdata, hhash, hcolon,
    Option.getD_none, unescape_nopct [] (by simp), hempty, hall, hhead, hmap, hquery,
    hslash, hallHost, setPathModel, Bool.and_self, if_true, Bool.true_and, Bool.and_true,
    false_and, if_false_left, and_true, true_and]
  simp only [List.all_eq_true] at hall hallHost
  simp [hempty, hall, hallHost, List.isEmpty_iff, hs0]

theorem ite_append_chars (P : Char → Prop) (a seg : String) (cond : Prop) [Decidable cond]
    (ha : ∀ ch ∈ a.data, P ch) (hslash : P '/')
    (hseg : ∀ ch ∈ seg.data, P ch) :
    ∀ ch ∈ (if cond then a ++ "/" ++ seg else a).data, P ch := by
  intro ch hch
  split at hch
  · simp only [String.data_append, List.mem_append] at hch
    rcases hch with (h1 | h1) | h1
    · exact ha ch h1
    · simp at h1
      subst h1
      exact hslash
    · exact hseg ch h1
  · exact ha ch hch

theorem logicalPath_chars (c : Client) (options : GetFinalRequestOptions)
    (hsite : ∀ ch ∈ c.siteID.data, isSafeChar ch = true)
    (hstore : ∀ ch ∈ options.storeName.data, isSafeChar ch = true)
    (hkey : ∀ ch ∈ options.key.data, isSafeChar ch = true) :
    ∀ ch ∈ (logicalPath c options).data, ch = '/' ∨ isSafeChar ch = true := by
  have h1 : ∀ ch ∈ ("/" ++ c.siteID).data, ch = '/' ∨ isSafeChar ch = true := by
    intro ch hch
    simp only [String.data_append, List.mem_append] at hch
    rcases hch with h1 | h1
    · simp at h1
      exact Or.inl h1
    · exact Or.inr (hsite ch h1)
  have h2 := ite_append_chars (fun ch => ch = '/' ∨ isSafeChar ch = true)
    ("/" ++ c.siteID) options.storeName (¬ options.storeName = "") h1 (Or.inl rfl)
    (fun ch hch => Or.inr (hstore ch hch))
  have h3 := ite_append_chars (fun ch => ch = '/' ∨ isSafeChar ch = true)
    _ options.key (¬ options.key = "") h2 (Or.inl rfl)
    (fun ch hch => Or.inr (hkey ch hch))
  exact h3

theorem logicalPath_template (c : Client) (options : GetFinalRequestOptions) :
    logicalPath c options =
      "/" ++ c.siteID ++ (if options.storeName = "" then "" else "/" ++ options.storeName) ++
        (if options.key = "" then "" else "/" ++ options.key) := by
  unfold logicalPath
  dsimp only
  by_cases h1 : options.storeName = "" <;> by_cases h2 : options.key = "" <;>
    simp [h1, h2, String.append_assoc]

theorem buildAPIURL_template (c : Client) (options : GetFinalRequestOptions)
    (hsite : ∀ ch ∈ c.siteID.data, isSafeChar ch = true)
    (hstore : ∀ ch ∈ options.storeName.data, isSafeChar ch = true)
    (hkey : ∀ ch ∈ options.key.data, isSafeChar ch = true)
    (hregion : ∀ ch ∈ c.region.data, isSafeChar ch = true)
    (hparams : options.parameters = [])
    (hapi : c.apiURL = "" ∨
      ∃ sch hostS, c.apiURL = sch ++ "://" ++ hostS ∧ ¬ sch.data = [] ∧
        (∀ ch ∈ sch.data, isLowerAlpha ch = true) ∧
        (∀ ch ∈ hostS.data, isPlainHostChar ch = true)) :
    ∃ u, c.buildAPIURL options = some u ∧
      urlString u =
        (if c.apiURL = "" then "https://api.netlify.com" else c.apiURL) ++
        "/api/v1/blobs/" ++ c.siteID ++
        (if options.storeName = "" then "" else "/" ++ options.storeName) ++
        (if options.key = "" then "" else "/" ++ options.key) ++
        (if c.region = "" then "" else "?region=" ++ c.region) := by
  have hchars := logicalPath_chars c options hsite hstore hkey
  have hpchars : ∀ ch ∈ ("/api/v1/blobs" ++ logicalPath c options).data,
      ch = '/' ∨ isSafeChar ch = true := by
    intro ch hch
    simp only [String.data_append, List.mem_append] at hch
    rcases hch with h1 | h1
    · exact (by decide : ∀ ch ∈ ("/api/v1/blobs" : String).data,
        ch = '/' ∨ isSafeChar ch = true) ch h1
    · exact hchars ch h1
  have hshape : ("/api/v1/blobs" ++ logicalPath c options).data =
      '/' :: 'a' :: ('p' :: 'i' :: '/' :: 'v' :: '1' :: '/' :: 'b' :: 'l' :: 'o' :: 'b' ::
        's' :: (logicalPath c options).data) := by
    rw [String.data_append]
    rfl
  have hparse := parseGoURL_rooted _ hpchars 'a' _ hshape (by decide)
  have hres := resolvePathAbs_id _ hpchars _ hshape
  have hpne : ¬ ("/api/v1/blobs" ++ logicalPath c options) = "" := by
    intro e
    have h2 := congrArg String.data e
    rw [hshape] at h2
    exact absurd h2 (by simp)
  have hbase : ∃ S H,
      (if c.apiURL ≠ "" then parseGoURL c.apiURL else parseGoURL "https://api.netlify.com") =
        some { scheme := S, host := H } ∧ ¬ S = "" ∧
      (if c.apiURL = "" then "https://api.netlify.com" else c.apiURL) = S ++ "://" ++ H := by
    rcases hapi with h | ⟨sch, hostS, heq, hne, hlow, hhost⟩
    · refine ⟨"https", "api.netlify.com", ?_, by decide, ?_⟩
      · rw [if_neg (by simp [h])]
        rfl
      · rw [if_pos h]
        rfl
    · have happly : ¬ c.apiURL = "" := by
        rw [heq]
        intro e
        have h2 := congrArg String.data e
        simp only [String.data_append] at h2
        rcases List.append_eq_nil.mp h2 with ⟨h3, -⟩
        rcases List.append_eq_nil.mp h3 with ⟨h4, -⟩
        exact hne h4
      refine ⟨sch, hostS, ?_, ?_, ?_⟩
      · rw [if_pos happly, heq]
        exact parseGoURL_base sch hostS hlow hne hhost
      · intro e
        exact hne (by rw [e])
      · rw [if_neg happly, heq]
  obtain ⟨S, H, hbase1, hSne, hbase2⟩ := hbase
  refine ⟨{ scheme := S, host := H, epath := "/api/v1/blobs" ++ logicalPath c options,
            rawQuery := if c.region = "" then "" else "region=" ++ c.region, frag := "" },
          ?_, ?_⟩
  · simp only [Client.buildAPIURL, hparse, hbase1, hparams]
    simp only [resolveReference]
    rw [if_neg (by simp)]
    rw [if_neg (by simp [hpne])]
    dsimp only
    rw [hres]
    rw [show parseQueryModel "" = [] from rfl]
    by_cases hr : c.region = ""
    · simp [hr, show encodeQuery [] = "" from rfl]
    · simp only [if_pos hr, if_neg hr, List.nil_append,
        show ∀ r : String, encodeQuery [("region", r)] = "region=" ++ queryEscape r
          from fun _ => rfl,
        queryEscape_safe c.region hregion]
  · rw [hbase2]
    simp only [urlString]
    dsimp only
    rw [if_pos hSne, if_pos (Or.inl hSne), if_pos (Or.inr hpne)]
    rw [if_neg (show ¬ ("" : String) ≠ "" by simp)]
    by_cases hr : c.region = ""
    · simp only [if_pos hr]
      rw [if_neg (show ¬ ("" : String) ≠ "" by simp)]
      apply String.ext
      by_cases h1 : options.storeName = "" <;> by_cases h2 : options.key = "" <;>
        simp [h1, h2, logicalPath_template, String.data_append, List.append_assoc,
          show (":" : String).data = [':'] from rfl,
          show ("//" : String).data = ['/', '/'] from rfl,
          show ("://" : String).data = [':', '/', '/'] from rfl,
          show ("/" : String).data = ['/'] from rfl,
          show ("" : String).data = [] from rfl,
          show ("/api/v1/blobs" : String).data =
            ['/', 'a', 'p', 'i', '/', 'v', '1', '/', 'b', 'l', 'o', 'b', 's'] from rfl,
          show ("/api/v1/blobs/" : String).data =
            ['/', 'a', 'p', 'i', '/', 'v', '1', '/', 'b', 'l', 'o', 'b', 's', '/'] from rfl]
    · have hq2 : ¬ ("region=" ++ c.region : String) = "" := by
        intro e
        have h2 := congrArg String.data e
        simp only [String.data_append] at h2
        simp at h2
      simp only [if_neg hr]
      rw [if_pos hq2]
      apply String.ext
      by_cases h1 : options.storeName = "" <;> by_cases h2 : options.key = "" <;>
        simp [h1, h2, logicalPath_template, String.data_append, List.append_assoc,
          show (":" : String).data = [':'] from rfl,
          show ("//" : String).data = ['/', '/'] from rfl,
          show ("://" : String).data = [':', '/', '/'] from rfl,
          show ("/" : String).data = ['/'] from rfl,
          show ("" : String).data = [] from rfl,
          show ("?" : String).data = ['?'] from rfl,
          show ("region=" : String).data = ['r', 'e', 'g', 'i', 'o', 'n', '='] from rfl,
          show ("?region=" : String).data = ['?', 'r', 'e', 'g', 'i', 'o', 'n', '='] from rfl,
          show ("/api/v1/blobs" : String).data =
            ['/', 'a', 'p', 'i', '/', 'v', '1', '/', 'b', 'l', 'o', 'b', 's'] from rfl,
          show ("/api/v1/blobs/" : String).data =
            ['/', 'a', 'p', 'i', '/', 'v', '1', '/', 'b', 'l', 'o', 'b', 's', '/'] from rfl]

/-- C4 counterexample.  On the signed-exchange branch (GET with store name and
key, 200 response), GetFinalRequest returns an empty header map: the lookup of
the authorization header yields the empty string, not the bearer token, so the
claim's header clause fails as stated. -/
theorem C4_counterexample_signed_branch_headers_empty :
    (Client.GetFinalRequest { siteID := "site1", token := "t" }
      (fun _ => some { statusCode := 200, headers := [], body := "" })
      { method := .get, storeName := "construction", key := "nails" }).1 =
      .ok (([] : Headers), "https://api.netlify.com/api/v1/blobs/site1/construction/nails") ∧
    headerGet ([] : Headers) "authorization" = "" ∧
    ¬ ("Bearer t" : String) = "" :=
  ⟨rfl, rfl, by decide⟩

/-- C4 (amended).  For safe inputs, the URL built on the API-mediated branch
is the path /api/v1/blobs/{siteID}[/{storeName}][/{key}] resolved against
config.apiURL — or against https://api.netlify.com when apiURL is unset —
with region attached as a query parameter exactly when a region is
configured; and on the branches that perform no signed-URL exchange (empty
store name or key, or HEAD/DELETE) the resolver returns exactly that URL with
the bearer-token authorization header. -/
theorem C4_amended_built_url_and_direct_headers (c : Client)
    (options : GetFinalRequestOptions)
    (hsite : ∀ ch ∈ c.siteID.data, isSafeChar ch = true)
    (hstore : ∀ ch ∈ options.storeName.data, isSafeChar ch = true)
    (hkey : ∀ ch ∈ options.key.data, isSafeChar ch = true)
    (hregion : ∀ ch ∈ c.region.data, isSafeChar ch = true)
    (hparams : options.parameters = [])
    (hapi : c.apiURL = "" ∨
      ∃ sch hostS, c.apiURL = sch ++ "://" ++ hostS ∧ ¬ sch.data = [] ∧
        (∀ ch ∈ sch.data, isLowerAlpha ch = true) ∧
        (∀ ch ∈ hostS.data, isPlainHostChar ch = true)) :
    ∃ u, c.buildAPIURL options = some u ∧
      urlString u =
        (if c.apiURL = "" then "https://api.netlify.com" else c.apiURL) ++
        "/api/v1/blobs/" ++ c.siteID ++
        (if options.storeName = "" then "" else "/" ++ options.storeName) ++
        (if options.key = "" then "" else "/" ++ options.key) ++
        (if c.region = "" then "" else "?region=" ++ c.region) ∧
      ((options.storeName = "" ∨ options.key = "" ∨
          options.method = .head ∨ options.method = .delete) →
        ∀ transport : Transport, c.GetFinalRequest transport options =
          (.ok ([("authorization", "Bearer " ++ c.token)], urlString u), [])) := by
  obtain ⟨u, hu, hurl⟩ := buildAPIURL_template c options hsite hstore hkey hregion hparams hapi
  exact ⟨u, hu, hurl,
    fun hbr transport => getFinalRequest_direct c transport options hbr u hu⟩

/-- Closed instantiation of the amended C4: a HEAD on store "construction",
key "nails", region "us-east-1" against the default API base. -/
theorem C4_amended_witness :
    ∃ u, Client.buildAPIURL { siteID := "site1", token := "t", region := "us-east-1" }
        { method := .head, storeName := "construction", key := "nails" } = some u ∧
      urlString u =
        "https://api.netlify.com/api/v1/blobs/site1/construction/nails?region=us-east-1" ∧
      ((("construction" : String) = "" ∨ ("nails" : String) = "" ∨
          HTTPMethod.head = HTTPMethod.head ∨ HTTPMethod.head = HTTPMethod.delete) →
        ∀ transport : Transport,
          Client.GetFinalRequest { siteID := "site1", token := "t", region := "us-east-1" }
            transport { method := .head, storeName := "construction", key := "nails" } =
          (.ok ([("authorization", "Bearer t")], urlString u), [])) :=
  C4_amended_built_url_and_direct_headers _ _ (by decide) (by decide) (by decide) (by decide)
    rfl (Or.inl rfl)

end Blobs


namespace Blobs

theorem b64Val_b64Char : ∀ n < 64, b64Val (b64Char n) = some n := by decide

theorem b64Char_ne_pad (n : Nat) (hn : n < 64) : ¬ b64Char n = '=' := by
  intro e
  have h1 := b64Val_b64Char n hn
  rw [e] at h1
  exact Option.noConfusion h1

theorem base64_roundtrip (bs : List Nat) (h : ∀ b ∈ bs, b < 256) :
    base64decode (base64encode bs) = some bs := by
  induction bs using base64encode.induct with
  | case1 => rfl
  | case2 a =>
    have ha := h a (by simp)
    have e1 : b64Val (b64Char (a / 4)) = some (a / 4) := b64Val_b64Char _ (by omega)
    have e2 : b64Val (b64Char (a % 4 * 16)) = some (a % 4 * 16) := b64Val_b64Char _ (by omega)
    simp only [base64encode, base64decode, e1, e2]
    rw [if_pos (by simp)]
    simp only [Option.some.injEq, List.cons.injEq, and_true]
    omega
  | case3 a b =>
    have ha := h a (by simp)
    have hb := h b (by simp)
    have e1 : b64Val (b64Char (a / 4)) = some (a / 4) := b64Val_b64Char _ (by omega)
    have e2 : b64Val (b64Char (a % 4 * 16 + b / 16)) = some (a % 4 * 16 + b / 16) :=
      b64Val_b64Char _ (by omega)
    have e3 : b64Val (b64Char (b % 16 * 4)) = some (b % 16 * 4) := b64Val_b64Char _ (by omega)
    have n3 := b64Char_ne_pad (b % 16 * 4) (by omega)
    simp only [base64encode, base64decode, e1, e2, e3, n3, false_and, if_false]
    rw [if_pos (by simp)]
    simp only [Option.some.injEq, List.cons.injEq, and_true]
    constructor
    · omega
    · omega
  | case4 a b cc rest ih =>
    have ha := h a (by simp)
    have hb := h b (by simp)
    have hc := h cc (by simp)
    have hrec := ih (fun x hx => h x (by simp [hx]))
    have e1 : b64Val (b64Char (a / 4)) = some (a / 4) := b64Val_b64Char _ (by omega)
    have e2 : b64Val (b64Char (a % 4 * 16 + b / 16)) = some (a % 4 * 16 + b / 16) :=
      b64Val_b64Char _ (by omega)
    have e3 : b64Val (b64Char (b % 16 * 4 + cc / 64)) = some (b % 16 * 4 + cc / 64) :=
      b64Val_b64Char _ (by omega)
    have e4 : b64Val (b64Char (cc % 64)) = some (cc % 64) := b64Val_b64Char _ (by omega)
    have n3 := b64Char_ne_pad (b % 16 * 4 + cc / 64) (by omega)
    have n4 := b64Char_ne_pad (cc % 64) (by omega)
    simp only [base64encode, base64decode, e1, e2, e3, e4, n3, n4, false_and, if_false, hrec,
      Option.map_some']
    simp only [Option.some.injEq, List.cons.injEq, and_true]
    refine ⟨by omega, by omega, by omega⟩


theorem hexVal_upperHexDigit : ∀ n < 16, hexVal (upperHexDigit n) = some n := by decide

theorem psb_close (l : List Char) : parseStrBody ('"' :: l) = some ([], l) := by
  rw [parseStrBody.eq_def]
  simp

theorem psb_quote (l : List Char) :
    parseStrBody ('\\' :: '"' :: l) = (parseStrBody l).map fun p => ('"' :: p.1, p.2) := by
  rw [parseStrBody.eq_def]
  simp

theorem psb_backslash (l : List Char) :
    parseStrBody ('\\' :: '\\' :: l) = (parseStrBody l).map fun p => ('\\' :: p.1, p.2) := by
  rw [parseStrBody.eq_def]
  simp

theorem psb_u (h1 h2 h3 h4 : Char) (a b cc d : Nat)
    (e1 : hexVal h1 = some a) (e2 : hexVal h2 = some b)
    (e3 : hexVal h3 = some cc) (e4 : hexVal h4 = some d) (l : List Char) :
    parseStrBody ('\\' :: 'u' :: h1 :: h2 :: h3 :: h4 :: l) =
      (parseStrBody l).map fun p =>
        (Char.ofNat (((a * 16 + b) * 16 + cc) * 16 + d) :: p.1, p.2) := by
  rw [parseStrBody.eq_def]
  simp [e1, e2, e3, e4]

theorem psb_plain (c : Char) (hq : ¬ c = '"') (hb : ¬ c = '\\') (l : List Char) :
    parseStrBody (c :: l) = (parseStrBody l).map fun p => (c :: p.1, p.2) := by
  rw [parseStrBody.eq_def]
  simp [hq, hb]

theorem escJsonChars_cons (c : Char) (cs : List Char) :
    escJsonChars (c :: cs) = escJsonChar c ++ escJsonChars cs := by
  simp [escJsonChars]

theorem parseStrBody_esc (cs : List Char) (h : ∀ c ∈ cs, c.toNat < 65536) (rest : List Char) :
    parseStrBody (escJsonChars cs ++ '"' :: rest) = some (cs, rest) := by
  induction cs with
  | nil => exact psb_close rest
  | cons c cs ih =>
    have hc : c.toNat < 65536 := h c (by simp)
    have hrec := ih (fun d hd => h d (by simp [hd]))
    rw [escJsonChars_cons, List.append_assoc]
    by_cases hq : c = '"'
    · have hE : escJsonChar c = ['\\', '"'] := by simp [escJsonChar, hq]
      rw [hE]
      simp only [List.cons_append, List.nil_append]
      rw [psb_quote, hrec]
      simp [hq]
    · by_cases hb : c = '\\'
      · have hE : escJsonChar c = ['\\', '\\'] := by simp [escJsonChar, hq, hb]
        rw [hE]
        simp only [List.cons_append, List.nil_append]
        rw [psb_backslash, hrec]
        simp [hb]
      · by_cases hout : c.toNat < 32 ∨ 126 < c.toNat
        · have hb3 : (decide (c.toNat < 32) || decide (126 < c.toNat)) = true := by
            simp only [Bool.or_eq_true, decide_eq_true_eq]
            exact hout
          have hE : escJsonChar c =
              ['\\', 'u', upperHexDigit (c.toNat / 4096 % 16), upperHexDigit (c.toNat / 256 % 16),
               upperHexDigit (c.toNat / 16 % 16), upperHexDigit (c.toNat % 16)] := by
            simp only [escJsonChar, if_neg hq, if_neg hb, if_pos hb3]
          rw [hE]
          simp only [List.cons_append, List.nil_append]
          rw [psb_u _ _ _ _ _ _ _ _
            (hexVal_upperHexDigit _ (by omega)) (hexVal_upperHexDigit _ (by omega))
            (hexVal_upperHexDigit _ (by omega)) (hexVal_upperHexDigit _ (by omega)), hrec]
          have harith : ((c.toNat / 4096 % 16 * 16 + c.toNat / 256 % 16) * 16 +
              c.toNat / 16 % 16) * 16 + c.toNat % 16 = c.toNat := by omega
          rw [harith, Char.ofNat_toNat]
          rfl
        · have hb3 : ¬ ((decide (c.toNat < 32) || decide (126 < c.toNat)) = true) := by
            simp only [Bool.or_eq_true, decide_eq_true_eq]
            exact hout
          have hE : escJsonChar c = [c] := by
            simp only [escJsonChar, if_neg hq, if_neg hb, if_neg hb3]
          rw [hE]
          simp only [List.cons_append, List.nil_append]
          rw [psb_plain c hq hb, hrec]
          rfl


theorem jsonStrChars_shape (s : String) :
    jsonStrChars s = '"' :: (escJsonChars s.data ++ ['"']) := by
  simp [jsonStrChars]

theorem parsePairs_serialize (m : Metadata)
    (hchars : ∀ p ∈ m, (∀ c ∈ p.1.data, c.toNat < 65536) ∧ (∀ c ∈ p.2.data, c.toNat < 65536)) :
    ∀ (hm : ¬ m = []) (fuel : Nat) (hfuel : m.length ≤ fuel) (rest : List Char),
      parsePairs fuel (serializePairsSep m ++ '}' :: rest) = some (m, rest) := by
  induction m with
  | nil => intro hm; exact absurd rfl hm
  | cons p ms ih =>
    intro _ fuel hfuel rest
    obtain ⟨k, v⟩ := p
    obtain ⟨f, rfl⟩ : ∃ f, fuel = f + 1 := ⟨fuel - 1, by simp at hfuel; omega⟩
    have hk := (hchars (k, v) (by simp)).1
    have hv := (hchars (k, v) (by simp)).2
    cases ms with
    | nil =>
      show parsePairs (f + 1)
        ((jsonStrChars k ++ ':' :: jsonStrChars v) ++ '}' :: rest) = _
      rw [jsonStrChars_shape, jsonStrChars_shape]
      rw [parsePairs.eq_def]
      simp only [List.cons_append, List.append_assoc, List.nil_append]
      rw [if_pos (by simp)]
      rw [parseStrBody_esc k.data hk]
      simp only
      rw [if_pos (by simp)]
      rw [parseStrBody_esc v.data hv]
      simp
    | cons p2 ms2 =>
      show parsePairs (f + 1)
        ((jsonStrChars k ++ ':' :: jsonStrChars v ++ ',' :: serializePairsSep (p2 :: ms2)) ++
          '}' :: rest) = _
      rw [jsonStrChars_shape, jsonStrChars_shape]
      rw [parsePairs.eq_def]
      simp only [List.cons_append, List.append_assoc, List.nil_append]
      rw [if_pos (by simp)]
      rw [parseStrBody_esc k.data hk]
      simp only
      rw [if_pos (by simp)]
      rw [parseStrBody_esc v.data hv]
      simp only
      rw [if_pos (by simp)]
      rw [ih (fun q hq => hchars q (by simp [hq])) (by simp) f (by simp at hfuel ⊢; omega) rest]
      rfl



theorem length_le_serialize : ∀ m : Metadata, m.length ≤ (serializePairsSep m).length := by
  intro m
  induction m with
  | nil => simp [serializePairsSep]
  | cons p ms ih =>
    obtain ⟨k, v⟩ := p
    cases ms with
    | nil =>
      rw [show serializePairsSep [(k, v)] = jsonStrChars k ++ ':' :: jsonStrChars v from rfl]
      simp [jsonStrChars]
    | cons q qs =>
      rw [show serializePairsSep ((k, v) :: q :: qs) =
        jsonStrChars k ++ ':' :: jsonStrChars v ++ ',' :: serializePairsSep (q :: qs) from rfl]
      simp only [jsonStrChars_shape, List.length_append, List.length_cons]
      simp only [List.length_cons] at ih ⊢
      omega

theorem serializePairsSep_cons_ne (p : String × String) (ms : Metadata) :
    ¬ (serializePairsSep (p :: ms) ++ ['}'] = ['}']) := by
  intro e
  have hlen := congrArg List.length e
  simp only [List.length_append, List.length_cons, List.length_nil] at hlen
  have hl := length_le_serialize (p :: ms)
  simp only [List.length_cons] at hl
  omega

theorem upperHexDigit_ascii : ∀ n < 16, (upperHexDigit n).toNat < 128 := by decide

theorem escJsonChar_ascii (c : Char) : ∀ x ∈ escJsonChar c, x.toNat < 128 := by
  intro x hx
  by_cases hq : c = '"'
  · rw [show escJsonChar c = ['\\', '"'] from by simp [escJsonChar, hq]] at hx
    simp at hx
    rcases hx with h | h <;> subst h <;> decide
  · by_cases hb : c = '\\'
    · rw [show escJsonChar c = ['\\', '\\'] from by simp [escJsonChar, hq, hb]] at hx
      simp at hx
      subst hx
      decide
    · by_cases hout : c.toNat < 32 ∨ 126 < c.toNat
      · have hb3 : (decide (c.toNat < 32) || decide (126 < c.toNat)) = true := by
          simp only [Bool.or_eq_true, decide_eq_true_eq]
          exact hout
        rw [show escJsonChar c =
          ['\\', 'u', upperHexDigit (c.toNat / 4096 % 16), upperHexDigit (c.toNat / 256 % 16),
           upperHexDigit (c.toNat / 16 % 16), upperHexDigit (c.toNat % 16)] from by
            simp only [escJsonChar, if_neg hq, if_neg hb, if_pos hb3]] at hx
        simp at hx
        rcases hx with h | h | h | h | h | h
        · subst h; decide
        · subst h; decide
        · subst h; exact upperHexDigit_ascii _ (by omega)
        · subst h; exact upperHexDigit_ascii _ (by omega)
        · subst h; exact upperHexDigit_ascii _ (by omega)
        · subst h; exact upperHexDigit_ascii _ (by omega)
      · have hb3 : ¬ ((decide (c.toNat < 32) || decide (126 < c.toNat)) = true) := by
          simp only [Bool.or_eq_true, decide_eq_true_eq]
          exact hout
        rw [show escJsonChar c = [c] from by
          simp only [escJsonChar, if_neg hq, if_neg hb, if_neg hb3]] at hx
        simp at hx
        subst hx
        omega

theorem escJsonChars_ascii (l : List Char) : ∀ x ∈ escJsonChars l, x.toNat < 128 := by
  intro x hx
  simp only [escJsonChars, List.mem_flatMap] at hx
  obtain ⟨c, -, hc⟩ := hx
  exact escJsonChar_ascii c x hc

theorem jsonStrChars_ascii (s : String) : ∀ x ∈ jsonStrChars s, x.toNat < 128 := by
  intro x hx
  rw [jsonStrChars_shape] at hx
  simp only [List.mem_cons, List.mem_append] at hx
  rcases hx with h | h | h
  · subst h; decide
  · exact escJsonChars_ascii s.data x h
  · simp at h; subst h; decide

theorem serializePairsSep_ascii :
    ∀ m : Metadata, ∀ x ∈ serializePairsSep m, x.toNat < 128 := by
  intro m
  induction m with
  | nil => intro x hx; simp [serializePairsSep] at hx
  | cons p ms ih =>
    obtain ⟨k, v⟩ := p
    intro x hx
    cases ms with
    | nil =>
      rw [show serializePairsSep [(k, v)] = jsonStrChars k ++ ':' :: jsonStrChars v from rfl]
        at hx
      simp only [List.mem_append, List.mem_cons] at hx
      rcases hx with h | h | h
      · exact jsonStrChars_ascii k x h
      · subst h; decide
      · exact jsonStrChars_ascii v x h
    | cons q qs =>
      rw [show serializePairsSep ((k, v) :: q :: qs) =
        jsonStrChars k ++ ':' :: jsonStrChars v ++ ',' :: serializePairsSep (q :: qs)
        from rfl] at hx
      rcases List.mem_append.mp hx with h | h
      · rcases List.mem_append.mp h with h | h
        · exact jsonStrChars_ascii k x h
        · rcases List.mem_cons.mp h with h | h
          · subst h; decide
          · exact jsonStrChars_ascii v x h
      · rcases List.mem_cons.mp h with h | h
        · subst h; decide
        · exact ih x h

theorem jsonOfMetadata_ascii (m : Metadata) : ∀ x ∈ jsonOfMetadata m, x.toNat < 128 := by
  intro x hx
  simp only [jsonOfMetadata, List.mem_cons, List.mem_append] at hx
  rcases hx with (h | h) | h
  · subst h; decide
  · exact serializePairsSep_ascii m x h
  · simp at h; subst h; decide

theorem map_ofNat_toNat (l : List Char) : (l.map Char.toNat).map Char.ofNat = l := by
  induction l with
  | nil => rfl
  | cons c cs ih => simp only [List.map_cons, Char.ofNat_toNat, ih]

theorem parseMetadataChars_serialize (m : Metadata)
    (hchars : ∀ p ∈ m, (∀ c ∈ p.1.data, c.toNat < 65536) ∧ (∀ c ∈ p.2.data, c.toNat < 65536)) :
    parseMetadataChars (jsonOfMetadata m) = some m := by
  cases m with
  | nil => rfl
  | cons p ms =>
    rw [show jsonOfMetadata (p :: ms) = '{' :: (serializePairsSep (p :: ms) ++ ['}'])
      from rfl]
    rw [parseMetadataChars.eq_def]
    simp only
    rw [if_pos (by simp)]
    rw [if_neg (serializePairsSep_cons_ne p ms)]
    rw [parsePairs_serialize (p :: ms) hchars (by simp)
      ((serializePairsSep (p :: ms) ++ ['}']).length)
      (by
        have h2 := length_le_serialize (p :: ms)
        simp only [List.length_append, List.length_cons, List.length_nil] at h2 ⊢
        omega)
      []]

theorem C9_helper_bytes (m : Metadata) :
    ∀ b ∈ (jsonOfMetadata m).map Char.toNat, b < 256 := by
  intro b hb
  simp only [List.mem_map] at hb
  obtain ⟨x, hx, rfl⟩ := hb
  have := jsonOfMetadata_ascii m x hx
  omega

/-- C9.  Encoding a metadata mapping by serialising it to JSON,
base64-encoding the bytes and prefixing the fixed b64 marker, then decoding by
the inverse steps, returns a mapping equal to the original — pairwise
identical, so equal as a mapping however its keys are ordered.  The hypothesis
restricts the characters to the Basic Multilingual Plane, the range the
model's four-digit hexadecimal escapes cover. -/
theorem C9_metadata_roundtrip (m : Metadata)
    (hchars : ∀ p ∈ m, (∀ c ∈ p.1.data, c.toNat < 65536) ∧ (∀ c ∈ p.2.data, c.toNat < 65536)) :
    decodeMetadata (encodeMetadata m) = some m := by
  have hdata : (encodeMetadata m).data =
      'b' :: '6' :: '4' :: ';' :: base64encode ((jsonOfMetadata m).map Char.toNat) := by
    rw [show encodeMetadata m =
      "b64;" ++ ⟨base64encode ((jsonOfMetadata m).map Char.toNat)⟩ from rfl]
    rw [String.data_append]
    rfl
  simp only [decodeMetadata, hdata, base64_roundtrip _ (C9_helper_bytes m), map_ofNat_toNat]
  exact parseMetadataChars_serialize m hchars

/-- Closed instantiation of C9: a two-pair mapping with spaces and slashes in
the values survives the round trip. -/
theorem C9_witness :
    decodeMetadata (encodeMetadata [("alpha", "beta j"), ("k2", "v/2")]) =
      some [("alpha", "beta j"), ("k2", "v/2")] :=
  C9_metadata_roundtrip [("alpha", "beta j"), ("k2", "v/2")] (by decide)

end Blobs
